import Mathlib

/-
Shallow embedding of the scheduling / data-handling / attention core of
`src/v041.py` (hlb-gpt-cli, version 0.4.1).

Modelling conventions:
- machine floats are modelled as exact rationals (`ℚ`) except for the
  learning-rate schedule, which involves a real power law and is modelled
  over `ℝ`;
- the transcendental scalar maps the code applies (exp inside softmax,
  gelu, softplus, layer normalisation, the weight-decay-from-loss
  exponential, the gradient-norm feedback ratio) are abstracted as
  function/value parameters drawn from the environment, since every
  property verified here is independent of their concrete values;
- randomness (the Bernoulli dither draw, the gradient norm measured from
  the data, the sampled batch start offsets) is supplied by explicit
  oracle arguments, one per loop iteration.
-/

namespace HlbGpt

/-! ## Configuration

The fields of the global `hyp` dictionary and the derived global
`tokens_per_batch_capacity` that the verified claims refer to
(`src/v041.py` lines 68-117 and 74). -/

structure Hyp where

  /-- `hyp.misc.sequence_length.max` -/
  seq_max : ℕ
  /-- `hyp.misc.sequence_length.initial` -/
  seq_initial : ℕ
  /-- `hyp.misc.sequence_length.growth_steps` -/
  growth_steps : ℕ
  /-- `hyp.opt.microbatch.sample_every` -/
  sample_every : ℕ
  /-- the global `tokens_per_batch_capacity` -/
  cap : ℕ
  /-- `hyp.opt.microbatch.scale_lr` (`1e-1`) -/
  scale_lr : ℚ
  /-- `hyp.opt.weight_decay` (`2.**4`), the initial coefficient of the
  default parameter group -/
  weight_decay0 : ℚ
  /-- `hyp.opt.num_eval_tokens` -/
  num_eval_tokens : ℕ

/-- The default configuration of `src/v041.py` at `model_scale = 1`:
`max = 1024`, `initial = 32`, `growth_steps = 80`, `sample_every = 5`,
`tokens_per_batch_capacity = floor(114688 / (1.52174 + .482)) = 57236`,
`scale_lr = 1e-1`, `weight_decay = 2^4`, `num_eval_tokens = 153600`. -/
def hyp0 : Hyp := ⟨1024, 32, 80, 5, 57236, 1/10, 2^4, 153600⟩

/-! ## Sequence-length growth (`grow_sequence_length`, lines 402-409) -/

/-- `grow_sequence_length(old_length, old_batchsize)`:
`new_length = min(2*old_length, hyp.misc.sequence_length.max)`,
`new_batchsize = tokens_per_batch_capacity // new_length`.
`old_batchsize` is only printed by the source, never used in the result. -/
def grow_sequence_length (h : Hyp) (old_length old_batchsize : ℕ) : ℕ × ℕ :=
  (min (2 * old_length) h.seq_max, h.cap / min (2 * old_length) h.seq_max)

/-! ## Microbatch dithering (lines 652-656) -/

/-- `base, dither_prob = divmod(microbatch_steps, 1)` (line 653):
integer part and fractional part. -/
def dither_parts (q : ℚ) : ℤ × ℚ := (⌊q⌋, q - ⌊q⌋)

/-- `discrete_sampled_microbatch_steps = max(1, int(base + torch.bernoulli(tensor(dither_prob))))`
(line 656).  `base + bernoulli` is a whole float, so `int` truncation is
just the integer itself. -/
def discretize_steps (q : ℚ) (b : Bool) : ℕ :=
  (max 1 ((dither_parts q).1 + if b then 1 else 0)).toNat

/-- `dither_prob`, the probability with which the Bernoulli draw rounds
the fractional estimate up (line 653). -/
def dither_prob (q : ℚ) : ℚ := (dither_parts q).2

/-- Expectation, over the Bernoulli draw of line 656, of the integer
accumulation depth actually used for the next group. -/
def expected_discrete_steps (q : ℚ) : ℚ :=
  (1 - dither_prob q) * (discretize_steps q false : ℚ)
    + dither_prob q * (discretize_steps q true : ℚ)

/-- Line 649-650: `microbatch_steps *= 1 + sample_every * scale_lr * (ratio_diff - 1)`
then `microbatch_steps = max(microbatch_steps, 1e-1)`. -/
def update_microbatch_steps (h : Hyp) (ratio_diff ms : ℚ) : ℚ :=
  max (ms * (1 + (h.sample_every : ℚ) * h.scale_lr * (ratio_diff - 1))) (1/10)

/-! ## The adaptive training loop (`train`, lines 478-713)

Only the scheduling state machine is embedded; the tensor work
(forward, backward, optimizer math) is represented by the observations
it feeds into the scheduler and by event logs (`applied_decays`,
`sched_steps`, `grad_accum`). -/

/-- Everything one loop iteration reads from the environment: the scalar
loss of this micro-batch, the measured-over-target gradient-norm ratio
`ratio_diff` (line 646, only consumed on sampling steps) and the
Bernoulli draw of line 656. -/
structure StepObs where
  loss : ℚ
  ratio_diff : ℚ
  bern : Bool

/-- The mutable training state owned by the loop, plus event logs
standing in for the optimizer-side effects. -/
structure TrainState where
  curr_step : ℕ
  curr_microbatch_step : ℕ
  curr_length : ℕ
  curr_batchsize : ℕ
  tokens_seen : ℕ

  /-- the fractional accumulation-depth estimate `microbatch_steps` -/
  microbatch_steps : ℚ
  /-- `discrete_sampled_microbatch_steps` -/
  discrete_steps : ℕ
  /-- `opt.param_groups[0]['weight_decay']`, the default bucket's
  weight-decay coefficient -/
  weight_decay : ℚ
  /-- log: the weight-decay coefficient that was in effect at each
  `opt.step()` call, in order -/
  applied_decays : List ℚ
  /-- log: number of `scheduler.step()` calls so far -/
  sched_steps : ℕ
  /-- number of micro-batches whose gradients are currently accumulated
  (grown by each `backward()`, cleared by `opt.zero_grad()`) -/
  grad_accum : ℕ

/-- Loop initialisation (lines 497-510): counters at zero,
`microbatch_steps = 0.`, `discrete_sampled_microbatch_steps = max(1, int(microbatch_steps))`,
initial length and derived batch size, initial weight decay from `hyp`. -/
def initState (h : Hyp) : TrainState where
  curr_step := 0
  curr_microbatch_step := 0
  curr_length := h.seq_initial
  curr_batchsize := h.cap / h.seq_initial
  tokens_seen := 0
  microbatch_steps := 0
  discrete_steps := (max 1 ⌊(0 : ℚ)⌋).toNat
  weight_decay := h.weight_decay0
  applied_decays := []
  sched_steps := 0
  grad_accum := 0

/-- One iteration of the main `while` loop (lines 578-703), with
`wdf : ℚ → ℚ` abstracting the weight-decay-from-loss formula of line 632
(`1./weight_decay_pow_base**(loss+1e-8) * hyp.opt.weight_decay`).
Mirrors the source's order: backward/token accounting first; then, when
the micro-step counter wraps past the discrete depth: `opt.step()` (which
consumes the weight-decay coefficient currently stored), THEN the
weight-decay reassignment from this iteration's loss, `scheduler.step()`,
the conditional sequence-length growth, the conditional feedback update
of `microbatch_steps`, the Bernoulli discretization, `opt.zero_grad()`,
the reset of the micro-step counter and the step-counter increment;
finally the unconditional `curr_microbatch_step += 1`. -/
def trainStep (h : Hyp) (wdf : ℚ → ℚ) (o : StepObs) (s : TrainState) : TrainState :=
  if s.curr_microbatch_step % s.discrete_steps = 0 then
    let lb :=
      if s.curr_step % h.growth_steps = 0 ∧ s.curr_step ≠ 0 ∧ s.curr_length < h.seq_max then
        grow_sequence_length h s.curr_length s.curr_batchsize
      else (s.curr_length, s.curr_batchsize)
    let ms :=
      if s.curr_step % h.sample_every = 0 then
        update_microbatch_steps h o.ratio_diff s.microbatch_steps
      else s.microbatch_steps
    { curr_step := s.curr_step + 1
      -- reset to 0 inside the branch, then the unconditional
      -- end-of-iteration increment
      curr_microbatch_step := 0 + 1
      curr_length := lb.1
      curr_batchsize := lb.2
      tokens_seen := s.tokens_seen + s.curr_batchsize * s.curr_length
      microbatch_steps := ms
      discrete_steps := discretize_steps ms o.bern
      weight_decay := wdf o.loss
      applied_decays := s.applied_decays ++ [s.weight_decay]
      sched_steps := s.sched_steps + 1
      grad_accum := 0 }
  else
    { s with
      tokens_seen := s.tokens_seen + s.curr_batchsize * s.curr_length
      grad_accum := s.grad_accum + 1
      curr_microbatch_step := s.curr_microbatch_step + 1 }

/-- The state after `n` iterations of the loop, driven by the oracle
stream `os`. -/
def trainTrace (h : Hyp) (wdf : ℚ → ℚ) (os : ℕ → StepObs) : ℕ → TrainState
  | 0 => initState h
  | n + 1 => trainStep h wdf (os n) (trainTrace h wdf os n)

/-! ## Batch sampling (`get_batch`, lines 335-343, and
`batch_index_offsets`, line 221) -/

/-- The exclusive upper bound `len(data[key]) - length - 1` passed to
`torch.randint` when drawing the start offsets (line 337); the drawn
offsets are the naturals strictly below it. -/
def start_index_high (dataLen length : ℕ) : ℕ := dataLen - length - 1

/-- `sequence_indexes[b][k] = start_indexes[b] + batch_index_offsets[k]`
(line 338), with `batch_index_offsets[k] = k` (`torch.arange`, line 221);
these are exactly the flattened element indices handed to
`take_along_dim` (line 339). -/
def sequence_index (start k : ℕ) : ℕ := start + k

/-- Element `k` of the sampled sequence starting at `start`
(`take_along_dim(data, sequence_indexes.flatten())`, line 339).
Out-of-range indices return the default `0` in this model; claim C10 is
that they never occur. -/
def sampled_sequence (data : List ℕ) (start k : ℕ) : ℕ :=
  data.getD (sequence_index start k) 0

/-- `inputs[b] = sampled_sequences[b][:-1]` (line 341): positions
`0 ≤ k < length`. -/
def batch_inputs (data : List ℕ) (start : ℕ) : ℕ → ℕ :=
  fun k => sampled_sequence data start k

/-- `targets[b] = sampled_sequences[b][1:]` (line 341): the inputs
shifted by one position. -/
def batch_targets (data : List ℕ) (start : ℕ) : ℕ → ℕ :=
  fun k => sampled_sequence data start (k + 1)

/-! ## Parameter-group partition (`init_param_groups_dict`, lines 363-389)

Python's `keyword in name` substring test is embedded as an executable
substring check over `List Char`; parameter names are the character
lists of the strings `named_parameters()` yields. -/

/-- Boolean test: does the second list start with the first one? -/
def startsWithChars : List Char → List Char → Bool
  | [], _ => true
  | _ :: _, [] => false
  | a :: as, b :: bs => a == b && startsWithChars as bs

/-- Boolean substring test `n ⊆ hay` (contiguous), scanning left to
right: Python's `n in hay` for strings. -/
def hasSubChars (n : List Char) : List Char → Bool
  | [] => n.isEmpty
  | c :: rest => startsWithChars n (c :: rest) || hasSubChars n rest

/-- `in_list(name, keyword_list)` (line 379): `any(keyword in name for
keyword in keyword_list)`. -/
def in_list (name : List Char) (kws : List (List Char)) : Bool :=
  kws.any fun k => hasSubChars k name

/-- The four parameter buckets of `param_groups` (lines 373-376). -/
inductive Bucket where
  | decay
  | position_bias_mult
  | norm_bias_embedding
  | output
deriving DecidableEq

/-- The bucket the loop of lines 384-387 assigns a parameter name to:
the first key of `param_groups` (in insertion order `decay`,
`position_bias_mult`, `('norm','bias','embedding')`, `output`) one of
whose keywords is a substring of the name, defaulting to `decay`. -/
def target_param_dict (name : List Char) : Bucket :=
  if in_list name ["decay".data] then .decay
  else if in_list name ["position_bias_mult".data] then .position_bias_mult
  else if in_list name ["norm".data, "bias".data, "embedding".data] then .norm_bias_embedding
  else if in_list name ["output".data] then .output
  else .decay

/-- Modelled from the spec (for the refinement comparison): assignment by
the first matching name-substring rule in the priority order
position-bias multiplier > {norm, bias, embedding} > output projection >
default "decay". -/
def spec_priority_assign (name : List Char) : Bucket :=
  if in_list name ["position_bias_mult".data] then .position_bias_mult
  else if in_list name ["norm".data, "bias".data, "embedding".data] then .norm_bias_embedding
  else if in_list name ["output".data] then .output
  else .decay

/-- Decimal digit characters, for the integer indices PyTorch's
`ModuleList` inserts into parameter names. -/
def digit_char : ℕ → Char
  | 0 => '0'
  | 1 => '1'
  | 2 => '2'
  | 3 => '3'
  | 4 => '4'
  | 5 => '5'
  | 6 => '6'
  | 7 => '7'
  | 8 => '8'
  | _ => '9'

/-- Decimal representation of a natural number, most significant digit
first (the index component of `net_dict.attn_layers.<i>.<...>`). -/
def natChars (n : ℕ) : List Char :=
  if n < 10 then [digit_char n]
  else natChars (n / 10) ++ [digit_char (n % 10)]
termination_by n
decreasing_by exact Nat.div_lt_self (by omega) (by omega)

/-- Full name of a parameter of attention block `i`, e.g.
`net_dict.attn_layers.3.expand`. -/
def attn_param_name (i : ℕ) (suf : List Char) : List Char :=
  "net_dict.attn_layers.".data ++ (natChars i ++ suf)

/-- The `(name, numel)` pairs of block `i` of a width-`d` network with
query/key dimension `qk` (expansion dimension `2*d`), in the order
`named_parameters()` yields them: direct parameters `expand`, `project`,
`position_bias_mult` first, then the `norm` submodule's weight. -/
def block_param_list (d qk i : ℕ) : List (List Char × ℕ) :=
  [(attn_param_name i ".expand".data, (2 * qk + 4 * d) * d),
   (attn_param_name i ".project".data, d * (2 * d)),
   (attn_param_name i ".position_bias_mult".data, 1),
   (attn_param_name i ".norm.weight".data, d)]

/-- All `(name, numel)` pairs of `net.named_parameters()` for a
`make_net` network with `depth` blocks, vocabulary `V`, width `d` and
query/key dimension `qk`; every one of them has `requires_grad`. -/
def param_list (depth V d qk : ℕ) : List (List Char × ℕ) :=
  ("net_dict.embedding.weight".data, V * d)
    :: ((List.range depth).map (block_param_list d qk)).flatten
    ++ [("net_dict.norm.weight".data, d), ("net_dict.outputs.weight".data, V * d)]

/-- Total size of the parameters assigned to bucket `b`. -/
def bucket_numel (l : List (List Char × ℕ)) (b : Bucket) : ℕ :=
  ((l.filter fun p => target_param_dict p.1 == b).map Prod.snd).sum

/-- Total size of all trainable parameters. -/
def total_numel (l : List (List Char × ℕ)) : ℕ := (l.map Prod.snd).sum

/-! ## Evaluation (`eval`, lines 447-475)

The network forward and the cross-entropy loss are abstracted as
function parameters (`net`, `lossB`): the forward pass treats every
sequence of the batch independently, so `net` maps one input sequence to
per-position logits.  Accuracy (`argmax` match rate) is modelled
exactly. -/

/-- `eval_batchsize = max(math.floor(tokens_per_batch_capacity/(max_len)//16), 1)`
(line 458). -/
def eval_batchsize (h : Hyp) : ℕ := max (h.cap / h.seq_max / 16) 1

/-- `num_eval_sequences = num_eval_tokens // max_len` (line 459). -/
def num_eval_sequences (h : Hyp) : ℕ := h.num_eval_tokens / h.seq_max

/-- `num_eval_steps = num_eval_sequences // eval_batchsize` (line 460). -/
def num_eval_steps (h : Hyp) : ℕ := num_eval_sequences h / eval_batchsize h

/-- Scan helper for `argmax`: fold over the remaining indices, replacing
the current best only on a strictly larger logit. -/
def argmax_go {V : ℕ} (f : Fin V → ℚ) : List (Fin V) → ℕ × ℚ → ℕ × ℚ
  | [], best => best
  | i :: rest, best => argmax_go f rest (if best.2 < f i then (i.1, f i) else best)

/-- `outputs.argmax(-1)` on one logit vector: the first index attaining
the maximal value. -/
def argmax_idx {V : ℕ} (f : Fin V → ℚ) : ℕ :=
  match List.finRange V with
  | [] => 0
  | i :: rest => (argmax_go f rest (i.1, f i)).1

/-- One evaluation step's accuracy over a batch of `B` sequences of
length `L`: `(outputs.argmax(-1) == targets).float().mean()` (line 471),
where `starts b` is the start offset `get_batch` drew for batch element
`b`. -/
def eval_step_acc {V : ℕ} (net : (ℕ → ℕ) → ℕ → Fin V → ℚ) (data : List ℕ)
    (L B : ℕ) (starts : ℕ → ℕ) : ℚ :=
  (∑ b ∈ Finset.range B, ∑ k ∈ Finset.range L,
      if argmax_idx (net (batch_inputs data (starts b)) k)
          = batch_targets data (starts b) k then (1 : ℚ) else 0)
    / ((B : ℚ) * (L : ℚ))

/-- `val_acc`: the sweep of lines 465-471, accumulating
`1/num_eval_steps * (...)` over the eval steps; `offs s b` is the random
start offset drawn for batch element `b` of eval step `s`. -/
def eval_acc {V : ℕ} (h : Hyp) (net : (ℕ → ℕ) → ℕ → Fin V → ℚ) (data : List ℕ)
    (offs : ℕ → ℕ → ℕ) : ℚ :=
  ∑ s ∈ Finset.range (num_eval_steps h),
    (1 / (num_eval_steps h : ℚ))
      * eval_step_acc net data h.seq_max (eval_batchsize h) (offs s)

/-- `val_loss`: the same sweep for the loss, with `lossB` abstracting
`loss_fn` applied to the flattened batch of logits and targets
(line 470). -/
def eval_loss {V : ℕ} (h : Hyp) (net : (ℕ → ℕ) → ℕ → Fin V → ℚ)
    (lossB : (ℕ → ℕ → Fin V → ℚ) → (ℕ → ℕ → ℕ) → ℚ) (data : List ℕ)
    (offs : ℕ → ℕ → ℕ) : ℚ :=
  ∑ s ∈ Finset.range (num_eval_steps h),
    (1 / (num_eval_steps h : ℚ))
      * lossB (fun b k => net (batch_inputs data (offs s b)) k)
          (fun b k => batch_targets data (offs s b) k)

/-- Configuration making the eval sweep a single step over a single
sequence of length 1 (`seq_max = 1`, `cap = 0` so
`eval_batchsize = max(0, 1) = 1`, `num_eval_tokens = 1`). -/
def evalHyp : Hyp := ⟨1, 1, 80, 5, 0, 1/10, 2^4, 1⟩

/-- A 2-token-vocabulary model predicting (via `argmax`) exactly its
first input token. -/
def net0 : (ℕ → ℕ) → ℕ → Fin 2 → ℚ :=
  fun inp _ v => if v.1 = inp 0 then 1 else 0

/-- A tiny held-out split of 4 tokens: at eval sequence length 1,
`get_batch` draws start offsets from `torch.randint(4 - 1 - 1) =
torch.randint(2)`, so both offset 0 and offset 1 occur with positive
probability. -/
def data0 : List ℕ := [0, 0, 1, 0]

/-! ## The attention block (`LatentAttentionBlock`, lines 228-284) and
network assembly (`SpeedyLangNet`/`make_net`, lines 292-327)

The embedding models the `num_heads = 1` path (the default
configuration; for `num_heads > 1` the code reshapes the same channels
per head before attention).  `expand_factor = 2` is fixed by `hyp`, so
`expand_dim = 2*d` and the `geglu` split sizes `expand_dim - v_dim` and
`v_dim` are both `d`. -/

/-- The scalar maps the block applies, abstracted as parameters:
`F.gelu`, `F.softplus`, the exponential inside the softmax of
`F.scaled_dot_product_attention`, and its `1/sqrt(qk_dim)` score
scale. -/
structure Ops where
  gelu : ℚ → ℚ
  softplus : ℚ → ℚ
  expF : ℚ → ℚ
  sdpaScale : ℚ

/-- The weights of one `LatentAttentionBlock` of width `d` and query/key
dimension `qk = d // qk_dim_div`.  The layer norm (shared by the linear
layers and attention, no bias) is abstracted as an arbitrary
per-position map of the channel vector, since its exact formula involves
a real square root; `expand` is the fused projection producing the
`(qk, qk, 2*d, 2*d)` split, `project` the output projection from the
concatenated `2*d` channels back to width, `position_bias_mult` the
learned scalar. -/
structure BlockWeights (d qk : ℕ) where
  norm : (Fin d → ℚ) → Fin d → ℚ
  expand : Fin (2 * qk + 4 * d) → Fin d → ℚ
  project : Fin d → Fin (2 * d) → ℚ
  position_bias_mult : ℚ

/-- Row index of `query` channel `a` in the fused `expand` output. -/
def idxQ {qk d : ℕ} (a : Fin qk) : Fin (2 * qk + 4 * d) :=
  ⟨a.1, by have := a.2; omega⟩

/-- Row index of `key` channel `a`. -/
def idxK {qk d : ℕ} (a : Fin qk) : Fin (2 * qk + 4 * d) :=
  ⟨qk + a.1, by have := a.2; omega⟩

/-- Row index of `linear` channel `c`. -/
def idxLin {qk d : ℕ} (c : Fin (2 * d)) : Fin (2 * qk + 4 * d) :=
  ⟨2 * qk + c.1, by have := c.2; omega⟩

/-- Row index of `pre_gelu` channel `c`. -/
def idxPre {qk d : ℕ} (c : Fin (2 * d)) : Fin (2 * qk + 4 * d) :=
  ⟨2 * qk + 2 * d + c.1, by have := c.2; omega⟩

/-- Dot product of two channel vectors (one row of `F.linear`). -/
def vdot {d : ℕ} (u v : Fin d → ℚ) : ℚ := ∑ c, u c * v c

/-- `position_bias_base[i][j] = bias_range[j] - bias_range[i] = j - i`
(lines 214-215; `bias_range = arange(-max+1, 1)`). -/
def position_bias_base (i j : ℕ) : ℚ := (j : ℚ) - (i : ℚ)

/-- `F.linear(self.norm(x), self.expand)` (lines 256-259): row `r` of the
fused projection at position `t`. -/
def fusedRow {d qk T : ℕ} (W : BlockWeights d qk) (x : Fin T → Fin d → ℚ)
    (t : Fin T) (r : Fin (2 * qk + 4 * d)) : ℚ :=
  vdot (W.expand r) (W.norm (x t))

/-- `geglu = linear * F.gelu(pre_gelu)` (line 262), channel `c` at
position `t`. -/
def gegluRow {d qk T : ℕ} (ops : Ops) (W : BlockWeights d qk) (x : Fin T → Fin d → ℚ)
    (t : Fin T) (c : Fin (2 * d)) : ℚ :=
  fusedRow W x t (idxLin c) * ops.gelu (fusedRow W x t (idxPre c))

/-- `geglu_local`: the first `expand_dim - v_dim = d` channels of `geglu`
(lines 266/269). -/
def gegluLocal {d qk T : ℕ} (ops : Ops) (W : BlockWeights d qk) (x : Fin T → Fin d → ℚ)
    (t : Fin T) (l : Fin d) : ℚ :=
  gegluRow ops W x t ⟨l.1, by have := l.2; omega⟩

/-- `geglu_attention_value`: the last `v_dim = d` channels of `geglu`,
or of `pre_gelu` when `linear_value` is set (lines 265-269). -/
def gegluValue {d qk T : ℕ} (ops : Ops) (W : BlockWeights d qk) (lv : Bool)
    (x : Fin T → Fin d → ℚ) (t : Fin T) (v : Fin d) : ℚ :=
  if lv then fusedRow W x t (idxPre ⟨d + v.1, by have := v.2; omega⟩)
  else gegluRow ops W x t ⟨d + v.1, by have := v.2; omega⟩

/-- The additive attention score of query position `t` against key
position `j`: the softmax argument of `scaled_dot_product_attention`
with the additive mask of line 253, i.e. the scaled query-key dot
product plus `softplus(position_bias_mult) * position_bias_base[t][j]`.
Only used at causally allowed positions `j ≤ t`; at masked positions the
`negative_infinity_matrix_base` entries give zero softmax weight, which
the model embeds by restricting the softmax sums to `j ≤ t`. -/
def scoreAt {d qk T : ℕ} (ops : Ops) (W : BlockWeights d qk) (x : Fin T → Fin d → ℚ)
    (t j : Fin T) : ℚ :=
  ops.sdpaScale * (∑ a, fusedRow W x t (idxQ a) * fusedRow W x j (idxK a))
    + ops.softplus W.position_bias_mult * position_bias_base t.1 j.1

/-- `F.scaled_dot_product_attention(query, key, geglu_attention_value, attn_mask)`
(line 276), channel `v` of output position `t`: the softmax-weighted
value sum over the causally allowed prefix `j ≤ t` (the `-inf` masked
positions contribute weight `exp(-inf) = 0`). -/
def attnOut {d qk T : ℕ} (ops : Ops) (W : BlockWeights d qk) (lv : Bool)
    (x : Fin T → Fin d → ℚ) (t : Fin T) (v : Fin d) : ℚ :=
  (∑ j ∈ Finset.Iic t, ops.expF (scoreAt ops W x t j) * gegluValue ops W lv x j v)
    / ∑ j ∈ Finset.Iic t, ops.expF (scoreAt ops W x t j)

/-- `torch.cat([geglu_local, attention], dim=-1)` (line 279), channel
`r`. -/
def catRow {d qk T : ℕ} (ops : Ops) (W : BlockWeights d qk) (lv : Bool)
    (x : Fin T → Fin d → ℚ) (t : Fin T) (r : Fin (2 * d)) : ℚ :=
  if h : r.1 < d then gegluLocal ops W x t ⟨r.1, h⟩
  else attnOut ops W lv x t ⟨r.1 - d, by have := r.2; omega⟩

/-- `LatentAttentionBlock.forward`: `residual + F.linear(cat, self.project)`
(lines 279-284), channel `c` of position `t`. -/
def blockForward {d qk T : ℕ} (ops : Ops) (W : BlockWeights d qk) (lv : Bool)
    (x : Fin T → Fin d → ℚ) (t : Fin T) (c : Fin d) : ℚ :=
  x t c + ∑ r, W.project c r * catRow ops W lv x t r

/-- The weights of an assembled `SpeedyLangNet` (`make_net`, lines
312-327): embedding table, the ordered blocks, the final layer norm
(again abstracted as a per-position map) and the output projection. -/
structure NetWeights (V d qk : ℕ) where
  embedding : Fin V → Fin d → ℚ
  blocks : List (BlockWeights d qk)
  finalNorm : (Fin d → ℚ) → Fin d → ℚ
  outputs : Fin V → Fin d → ℚ

/-- Sequential application of the attention blocks (lines 300-301). -/
def blocksApply {d qk T : ℕ} (ops : Ops) (lv : Bool) :
    List (BlockWeights d qk) → (Fin T → Fin d → ℚ) → Fin T → Fin d → ℚ
  | [], x => x
  | W :: Ws, x => blocksApply ops lv Ws fun t c => blockForward ops W lv x t c

/-- `SpeedyLangNet.forward` (lines 297-304): embedding lookup, the block
stack, the final norm, the output projection; logit `v` at position
`t`. -/
def netForward {V d qk T : ℕ} (ops : Ops) (lv : Bool) (NW : NetWeights V d qk)
    (tok : Fin T → Fin V) (t : Fin T) (v : Fin V) : ℚ :=
  vdot (NW.outputs v)
    (NW.finalNorm (blocksApply ops lv NW.blocks (fun u => NW.embedding (tok u)) t))

/-- Concrete scalar operations for the C1 witness. -/
def opsW : Ops := ⟨id, id, id, 1⟩

/-- Concrete block weights for the C1 witness (width 1). -/
def blockW : BlockWeights 1 1 :=
  ⟨fun v => v, fun _ _ => 1, fun _ _ => 1, 0⟩

/-- Concrete network weights for the C1 witness (vocabulary 2). -/
def netW : NetWeights 2 1 1 :=
  ⟨fun v _ => (v.1 : ℚ), [blockW], fun v => v, fun _ _ => 1⟩

/-- First C1 witness input: positions carry their index. -/
def x1w : Fin 3 → Fin 1 → ℚ := fun j _ => (j.1 : ℚ)

/-- Second C1 witness input: agrees with the first on positions `≤ 1`,
perturbed at position 2. -/
def x2w : Fin 3 → Fin 1 → ℚ := fun j _ => if j.1 = 2 then 99 else (j.1 : ℚ)

/-- Token sequences for the network half of the C1 witness, agreeing on
positions `≤ 1` and differing at position 2. -/
def tok1w : Fin 3 → Fin 2 := fun _ => 0

/-- Perturbed token sequence for the C1 witness. -/
def tok2w : Fin 3 → Fin 2 := fun j => if j.1 = 2 then 1 else 0

/-! ## Learning-rate schedules (lines 353-361)

The schedule is a real-valued function of the integer step index; the
power law `(step + 1 - peak_step) ** exponent` is a real power, so this
part of the model lives over `ℝ`. -/

/-- `infinite_power_law_decay` (line 356): linear warmup from
`min_initial_mult` to 1 over `peak_step` steps, then the infinite decay
`(step + 1. - peak_step) ** exponent`. -/
noncomputable def infinite_power_law_decay
    (step min_initial_mult peak_step exponent : ℝ) : ℝ :=
  if step < peak_step then min_initial_mult + step / peak_step * (1 - min_initial_mult)
  else (step + 1 - peak_step) ^ exponent

/-- `infinite_powah` (line 359): the default-bucket multiplicative
schedule, `min_initial_mult = 2e-2`, `peak_step = warmup_steps = 100`,
`exponent = -.08`. -/
noncomputable def infinite_powah (step : ℝ) : ℝ :=
  infinite_power_law_decay step (2/100) 100 (-(8/100))

/-! ## Lemmas and claim theorems -/

/-! ## Lemmas about the loop -/

lemma discretize_steps_pos (q : ℚ) (b : Bool) : 1 ≤ discretize_steps q b := by
  unfold discretize_steps dither_parts
  cases b <;> simp

lemma trainStep_discrete_pos (h : Hyp) (wdf : ℚ → ℚ) (o : StepObs) (s : TrainState)
    (hs : 1 ≤ s.discrete_steps) : 1 ≤ (trainStep h wdf o s).discrete_steps := by
  unfold trainStep
  split
  · exact discretize_steps_pos _ _
  · exact hs

lemma trainStep_inv (h : Hyp) (wdf : ℚ → ℚ) (o : StepObs) (s : TrainState)
    (hlen : s.curr_length ≤ h.seq_max)
    (hcap : s.curr_batchsize * s.curr_length ≤ h.cap) :
    (trainStep h wdf o s).curr_length ≤ h.seq_max
      ∧ (trainStep h wdf o s).curr_batchsize * (trainStep h wdf o s).curr_length ≤ h.cap
      ∧ s.curr_length ≤ (trainStep h wdf o s).curr_length := by
  unfold trainStep
  split
  · dsimp only
    split
    · rename_i hc
      dsimp only [grow_sequence_length]
      exact ⟨min_le_right _ _, Nat.div_mul_le_self _ _, le_min (by omega) hc.2.2.le⟩
    · exact ⟨hlen, hcap, le_refl _⟩
  · exact ⟨hlen, hcap, le_refl _⟩

/-! ## Claim theorems: sequence-length scheduling and microbatch dithering -/

/-- C2: `grow_sequence_length` returns `new_length = min(2*old_length, L)` and
`new_batchsize = C // new_length` for the configured maximum `L` and token
capacity `C`; and the training loop leaves sequence length and batch size
untouched (never invokes `grow_sequence_length`) once the current length
equals the maximum, and likewise at optimization step 0. -/
theorem c2_grow_sequence_length :
    (∀ (h : Hyp) (old_length old_batchsize : ℕ),
        grow_sequence_length h old_length old_batchsize
          = (min (2 * old_length) h.seq_max, h.cap / min (2 * old_length) h.seq_max))
    ∧ (∀ (h : Hyp) (wdf : ℚ → ℚ) (o : StepObs) (s : TrainState),
        s.curr_length = h.seq_max →
          (trainStep h wdf o s).curr_length = s.curr_length
            ∧ (trainStep h wdf o s).curr_batchsize = s.curr_batchsize)
    ∧ (∀ (h : Hyp) (wdf : ℚ → ℚ) (o : StepObs) (s : TrainState),
        s.curr_step = 0 →
          (trainStep h wdf o s).curr_length = s.curr_length
            ∧ (trainStep h wdf o s).curr_batchsize = s.curr_batchsize) := by
  refine ⟨fun h old_length old_batchsize => rfl, ?_, ?_⟩
  · intro h wdf o s hmax
    unfold trainStep
    split
    · have hc : ¬(s.curr_step % h.growth_steps = 0 ∧ s.curr_step ≠ 0
          ∧ s.curr_length < h.seq_max) := by
        rintro ⟨-, -, hlt⟩
        omega
      simp [hc]
    · exact ⟨rfl, rfl⟩
  · intro h wdf o s hstep
    unfold trainStep
    split
    · have hc : ¬(s.curr_step % h.growth_steps = 0 ∧ s.curr_step ≠ 0
          ∧ s.curr_length < h.seq_max) := by
        rintro ⟨-, hne, -⟩
        exact hne hstep
      simp [hc]
    · exact ⟨rfl, rfl⟩

/-- C2 witness: at the default configuration, a state already at the
maximum sequence length passes through one loop iteration with its length
and batch size unchanged. -/
theorem c2_grow_sequence_length_witness :
    (trainStep hyp0 (fun l => l) ⟨0, 0, false⟩
        { initState hyp0 with curr_length := 1024 }).curr_length
      = ({ initState hyp0 with curr_length := 1024 } : TrainState).curr_length
    ∧ (trainStep hyp0 (fun l => l) ⟨0, 0, false⟩
        { initState hyp0 with curr_length := 1024 }).curr_batchsize
      = ({ initState hyp0 with curr_length := 1024 } : TrainState).curr_batchsize :=
  c2_grow_sequence_length.2.1 hyp0 (fun l => l) ⟨0, 0, false⟩
    { initState hyp0 with curr_length := 1024 } rfl

/-- C3: for every fractional accumulation-depth estimate (clamped or not)
and every Bernoulli outcome, the discretized accumulation depth is an
integer `≥ 1`; the initial discretized depth is `≥ 1`; and along every
trace of the training loop the discretized depth in use is `≥ 1`. -/
theorem c3_discrete_depth_ge_one :
    (∀ (q : ℚ) (b : Bool), 1 ≤ discretize_steps q b)
    ∧ (∀ h : Hyp, 1 ≤ (initState h).discrete_steps)
    ∧ (∀ (h : Hyp) (wdf : ℚ → ℚ) (os : ℕ → StepObs) (n : ℕ),
        1 ≤ (trainTrace h wdf os n).discrete_steps) := by
  refine ⟨discretize_steps_pos, fun h => by simp [initState], ?_⟩
  intro h wdf os n
  induction n with
  | zero => simp [trainTrace, initState]
  | succ n ih => exact trainStep_discrete_pos h wdf (os n) _ ih

/-- C4 counterexample: at the fractional estimate `f = 0.3` the expected
discretized accumulation depth is `1`, not `0.3` — the `max(1, ·)` floor
of line 656 makes the expectation differ from `f` for every `f < 1`. -/
theorem c4_expected_depth_counterexample :
    expected_discrete_steps (3/10) ≠ 3/10 := by
  unfold expected_discrete_steps dither_prob discretize_steps dither_parts
  norm_num

/-- C4 (amended): the discretization splits the fractional estimate `f`
into integer and fractional part and rounds up with probability equal to
the fractional part (`0.3` for `f = 0.3`); the expected integer depth
equals `f` exactly whenever `f ≥ 1`, while for `f < 1` the `max(1, ·)`
floor raises the expectation to at least 1. -/
theorem c4_expected_depth :
    (∀ q : ℚ, 1 ≤ q → expected_discrete_steps q = q)
    ∧ dither_prob (3/10) = 3/10 := by
  constructor
  · intro q hq
    have hz : (1 : ℤ) ≤ ⌊q⌋ := Int.le_floor.mpr (by exact_mod_cast hq)
    have hz0 : (0 : ℤ) ≤ ⌊q⌋ := by omega
    have e1 : discretize_steps q false = ⌊q⌋.toNat := by
      unfold discretize_steps dither_parts
      rw [if_neg Bool.false_ne_true, add_zero, max_eq_right hz]
    have e2 : discretize_steps q true = ⌊q⌋.toNat + 1 := by
      unfold discretize_steps dither_parts
      rw [if_pos rfl, max_eq_right (by omega)]
      omega
    unfold expected_discrete_steps dither_prob dither_parts
    rw [e1, e2]
    push_cast [Int.toNat_of_nonneg hz0]
    have h3 : ((⌊q⌋.toNat : ℕ) : ℚ) = (⌊q⌋ : ℚ) := by
      exact_mod_cast Int.toNat_of_nonneg hz0
    rw [h3]
    ring
  · unfold dither_prob dither_parts
    norm_num

/-- C4 witness for the amended claim: at `f = 5/2` the expected
discretized depth is exactly `5/2`. -/
theorem c4_expected_depth_witness : expected_discrete_steps (5/2) = 5/2 :=
  c4_expected_depth.1 (5/2) (by norm_num)

/-- C7: along every trace of the training loop (from initialization,
after any number of iterations, for any oracle values), the current
sequence length never exceeds the configured maximum, the product of
current batch size and current sequence length never exceeds the token
capacity, and the sequence length is monotonically non-decreasing. -/
theorem c7_sequence_length_invariants (h : Hyp) (wdf : ℚ → ℚ) (os : ℕ → StepObs)
    (hinit : h.seq_initial ≤ h.seq_max) :
    ∀ n : ℕ,
      (trainTrace h wdf os n).curr_length ≤ h.seq_max
      ∧ (trainTrace h wdf os n).curr_batchsize * (trainTrace h wdf os n).curr_length ≤ h.cap
      ∧ (trainTrace h wdf os n).curr_length ≤ (trainTrace h wdf os (n + 1)).curr_length := by
  have hInv : ∀ n : ℕ, (trainTrace h wdf os n).curr_length ≤ h.seq_max
      ∧ (trainTrace h wdf os n).curr_batchsize * (trainTrace h wdf os n).curr_length ≤ h.cap := by
    intro n
    induction n with
    | zero => exact ⟨hinit, Nat.div_mul_le_self _ _⟩
    | succ n ih =>
      exact ⟨(trainStep_inv h wdf (os n) _ ih.1 ih.2).1,
        (trainStep_inv h wdf (os n) _ ih.1 ih.2).2.1⟩
  intro n
  exact ⟨(hInv n).1, (hInv n).2, (trainStep_inv h wdf (os n) _ (hInv n).1 (hInv n).2).2.2⟩

/-- C7 witness: the invariants at the default configuration after zero
iterations. -/
theorem c7_sequence_length_invariants_witness :
    (trainTrace hyp0 (fun l => l) (fun _ => ⟨0, 0, false⟩) 0).curr_length ≤ hyp0.seq_max
    ∧ (trainTrace hyp0 (fun l => l) (fun _ => ⟨0, 0, false⟩) 0).curr_batchsize
        * (trainTrace hyp0 (fun l => l) (fun _ => ⟨0, 0, false⟩) 0).curr_length ≤ hyp0.cap
    ∧ (trainTrace hyp0 (fun l => l) (fun _ => ⟨0, 0, false⟩) 0).curr_length
        ≤ (trainTrace hyp0 (fun l => l) (fun _ => ⟨0, 0, false⟩) 1).curr_length :=
  c7_sequence_length_invariants hyp0 (fun l => l) (fun _ => ⟨0, 0, false⟩) (by decide) 0

/-- C8 counterexample: the claimed order "set the weight decay from the
latest loss, then step" is not what the code does — `opt.step()` (line
628) precedes the weight-decay reassignment (line 632), so the very first
optimizer application uses the configured initial coefficient `2^4 = 16`,
not the coefficient computed from that group's loss.  Concretely, with
`wdf` the identity and a loss of `3`, the coefficient in effect at the
first `opt.step()` is `16`, not `wdf(3) = 3`. -/
theorem c8_optimizer_step_counterexample :
    (trainStep hyp0 (fun l => l) ⟨3, 0, false⟩ (initState hyp0)).applied_decays
      ≠ (initState hyp0).applied_decays ++ [(fun l : ℚ => l) 3] := by
  simp [trainStep, initState, hyp0]
  norm_num

/-- C8 (amended): at every optimizer application (whenever the micro-step
counter wraps past the current discrete accumulation depth), the loop
steps every parameter group with the weight-decay coefficient set at the
PREVIOUS application (initially the configured base value), then
recomputes the default bucket's weight-decay coefficient from the latest
loss (to be used at the next application), steps the schedulers, zeroes
all accumulated gradients, resets the micro-step counter (to 0; the
unconditional end-of-iteration increment then makes it 1), and advances
the optimization-step counter. -/
theorem c8_optimizer_step_order (h : Hyp) (wdf : ℚ → ℚ) (o : StepObs) (s : TrainState)
    (happly : s.curr_microbatch_step % s.discrete_steps = 0) :
    (trainStep h wdf o s).applied_decays = s.applied_decays ++ [s.weight_decay]
    ∧ (trainStep h wdf o s).weight_decay = wdf o.loss
    ∧ (trainStep h wdf o s).sched_steps = s.sched_steps + 1
    ∧ (trainStep h wdf o s).grad_accum = 0
    ∧ (trainStep h wdf o s).curr_microbatch_step = 1
    ∧ (trainStep h wdf o s).curr_step = s.curr_step + 1 := by
  unfold trainStep
  rw [if_pos happly]
  exact ⟨rfl, rfl, rfl, rfl, rfl, rfl⟩

/-- C10: whenever the selected split holds more than `length + 1` tokens,
every start offset drawn by `torch.randint` lies in
`[0, len(data) - length - 2]`, and every flattened element index passed
to `take_along_dim` is (nonnegative and) strictly below the data length,
so the sampling never indexes out of bounds. -/
theorem c10_get_batch_in_bounds (data : List ℕ) (batchsize length : ℕ)
    (starts : Fin batchsize → ℕ)
    (hlen : length + 1 < data.length)
    (hstarts : ∀ b, starts b < start_index_high data.length length) :
    (∀ b, starts b ≤ data.length - length - 2)
    ∧ ∀ (b : Fin batchsize) (k : ℕ), k ≤ length →
        sequence_index (starts b) k < data.length := by
  constructor
  · intro b
    have hb := hstarts b
    unfold start_index_high at hb
    omega
  · intro b k hk
    have hb := hstarts b
    unfold start_index_high at hb
    unfold sequence_index
    omega

/-- C10 witness: a data split of 5 tokens, sequence length 2, one drawn
start offset 1. -/
theorem c10_get_batch_in_bounds_witness :
    (∀ b : Fin 1, (fun _ : Fin 1 => 1) b ≤ ([0, 1, 2, 3, 4] : List ℕ).length - 2 - 2)
    ∧ ∀ (b : Fin 1) (k : ℕ), k ≤ 2 →
        sequence_index ((fun _ : Fin 1 => 1) b) k < ([0, 1, 2, 3, 4] : List ℕ).length :=
  c10_get_batch_in_bounds [0, 1, 2, 3, 4] 1 2 (fun _ => 1) (by norm_num)
    (fun b => by norm_num [start_index_high])

/-! ### Substring lemmas -/

lemma sw_append (n : List Char) :
    ∀ A B : List Char, startsWithChars n A = true → startsWithChars n (A ++ B) = true := by
  induction n with
  | nil => intro A B h; rfl
  | cons c n ih =>
    intro A B h
    cases A with
    | nil => simp [startsWithChars] at h
    | cons a A =>
      simp only [startsWithChars, Bool.and_eq_true] at h
      simp only [List.cons_append, startsWithChars, Bool.and_eq_true]
      exact ⟨h.1, ih A B h.2⟩

lemma hasSub_append_right (n : List Char) :
    ∀ A B : List Char, hasSubChars n B = true → hasSubChars n (A ++ B) = true := by
  intro A
  induction A with
  | nil => intro B h; simpa using h
  | cons a A ih =>
    intro B h
    simp only [List.cons_append, hasSubChars, Bool.or_eq_true]
    exact Or.inr (ih B h)

lemma sw_digits (n : List Char) :
    ∀ (A ds B : List Char), n.all (fun c => !c.isDigit) = true → n ≠ [] →
      ds.all Char.isDigit = true → ds ≠ [] →
      startsWithChars n (A ++ (ds ++ B)) = true → startsWithChars n A = true := by
  induction n with
  | nil => intro A ds B _ hne; cases hne rfl
  | cons c n ih =>
    intro A ds B hn hne hds hdsne h
    cases A with
    | nil =>
      exfalso
      cases ds with
      | nil => exact hdsne rfl
      | cons d ds2 =>
        simp only [List.nil_append, List.cons_append, startsWithChars,
          Bool.and_eq_true, beq_iff_eq] at h
        simp only [List.all_cons, Bool.and_eq_true] at hn hds
        rw [h.1] at hn
        simp [hds.1] at hn
    | cons a A2 =>
      simp only [List.cons_append, startsWithChars, Bool.and_eq_true] at h ⊢
      refine ⟨h.1, ?_⟩
      cases n with
      | nil => rfl
      | cons c2 n2 =>
        simp only [List.all_cons, Bool.and_eq_true] at hn
        exact ih A2 ds B (by simp [List.all_cons, hn.2]) (by simp) hds hdsne h.2

lemma hasSub_strip_digits (n : List Char) (hn : n.all (fun c => !c.isDigit) = true)
    (hne : n ≠ []) :
    ∀ ds B : List Char, ds.all Char.isDigit = true →
      hasSubChars n (ds ++ B) = true → hasSubChars n B = true := by
  intro ds
  induction ds with
  | nil => intro B _ h; simpa using h
  | cons d ds ih =>
    intro B hds h
    simp only [List.cons_append, hasSubChars, Bool.or_eq_true] at h
    simp only [List.all_cons, Bool.and_eq_true] at hds
    cases h with
    | inl hsw =>
      exfalso
      cases n with
      | nil => exact hne rfl
      | cons c n2 =>
        simp only [startsWithChars, Bool.and_eq_true, beq_iff_eq] at hsw
        simp only [List.all_cons, Bool.and_eq_true] at hn
        rw [hsw.1] at hn
        simp [hds.1] at hn
    | inr h2 => exact ih B hds.2 h2

lemma hasSub_digits (n : List Char) (hn : n.all (fun c => !c.isDigit) = true)
    (hne : n ≠ []) :
    ∀ (A ds B : List Char), ds.all Char.isDigit = true → ds ≠ [] →
      hasSubChars n (A ++ (ds ++ B)) = true → hasSubChars n (A ++ B) = true := by
  intro A
  induction A with
  | nil =>
    intro ds B hds _ h
    simpa using hasSub_strip_digits n hn hne ds B hds (by simpa using h)
  | cons a A ih =>
    intro ds B hds hdsne h
    simp only [List.cons_append, hasSubChars, Bool.or_eq_true] at h ⊢
    cases h with
    | inl hsw =>
      exact Or.inl (sw_append n (a :: A) B
        (sw_digits n (a :: A) ds B hn hne hds hdsne hsw))
    | inr h2 => exact Or.inr (ih ds B hds hdsne h2)

lemma hasSub_digits_false (n A ds B : List Char)
    (hn : n.all (fun c => !c.isDigit) = true) (hne : n ≠ [])
    (hds : ds.all Char.isDigit = true) (hdsne : ds ≠ [])
    (h : hasSubChars n (A ++ B) = false) :
    hasSubChars n (A ++ (ds ++ B)) = false := by
  cases hh : hasSubChars n (A ++ (ds ++ B)) with
  | false => rfl
  | true => exact absurd (hasSub_digits n hn hne A ds B hds hdsne hh) (by simp [h])

lemma digit_char_isDigit (n : ℕ) : (digit_char n).isDigit = true := by
  rcases n with _|_|_|_|_|_|_|_|_|n <;> rfl

lemma natChars_all_digits (n : ℕ) : (natChars n).all Char.isDigit = true := by
  induction n using Nat.strong_induction_on with
  | _ n ih =>
    unfold natChars
    split
    · simp [digit_char_isDigit]
    · rename_i h
      simp only [List.all_append, Bool.and_eq_true]
      exact ⟨ih (n / 10) (Nat.div_lt_self (by omega) (by omega)),
        by simp [digit_char_isDigit]⟩

lemma natChars_ne_nil (n : ℕ) : natChars n ≠ [] := by
  unfold natChars
  split
  · simp
  · simp

lemma hasSub_attn_false (kw : List Char) (i : ℕ) (suf : List Char)
    (hn : kw.all (fun c => !c.isDigit) = true) (hne : kw ≠ [])
    (h : hasSubChars kw ("net_dict.attn_layers.".data ++ suf) = false) :
    hasSubChars kw (attn_param_name i suf) = false := by
  unfold attn_param_name
  exact hasSub_digits_false kw _ (natChars i) suf hn hne
    (natChars_all_digits i) (natChars_ne_nil i) h

lemma hasSub_attn_true (kw : List Char) (i : ℕ) (suf : List Char)
    (h : hasSubChars kw suf = true) :
    hasSubChars kw (attn_param_name i suf) = true := by
  unfold attn_param_name
  exact hasSub_append_right kw _ _ (hasSub_append_right kw _ _ h)

/-! ### The bucket of each parameter name shape -/

lemma assign_attn_expand (i : ℕ) :
    target_param_dict (attn_param_name i ".expand".data) = Bucket.decay
    ∧ spec_priority_assign (attn_param_name i ".expand".data) = Bucket.decay := by
  have h1 := hasSub_attn_false "decay".data i ".expand".data (by decide) (by decide) (by decide)
  have h2 := hasSub_attn_false "position_bias_mult".data i ".expand".data
    (by decide) (by decide) (by decide)
  have h3 := hasSub_attn_false "norm".data i ".expand".data (by decide) (by decide) (by decide)
  have h4 := hasSub_attn_false "bias".data i ".expand".data (by decide) (by decide) (by decide)
  have h5 := hasSub_attn_false "embedding".data i ".expand".data
    (by decide) (by decide) (by decide)
  have h6 := hasSub_attn_false "output".data i ".expand".data (by decide) (by decide) (by decide)
  unfold target_param_dict spec_priority_assign in_list
  simp [h1, h2, h3, h4, h5, h6]

lemma assign_attn_project (i : ℕ) :
    target_param_dict (attn_param_name i ".project".data) = Bucket.decay
    ∧ spec_priority_assign (attn_param_name i ".project".data) = Bucket.decay := by
  have h1 := hasSub_attn_false "decay".data i ".project".data (by decide) (by decide) (by decide)
  have h2 := hasSub_attn_false "position_bias_mult".data i ".project".data
    (by decide) (by decide) (by decide)
  have h3 := hasSub_attn_false "norm".data i ".project".data (by decide) (by decide) (by decide)
  have h4 := hasSub_attn_false "bias".data i ".project".data (by decide) (by decide) (by decide)
  have h5 := hasSub_attn_false "embedding".data i ".project".data
    (by decide) (by decide) (by decide)
  have h6 := hasSub_attn_false "output".data i ".project".data (by decide) (by decide) (by decide)
  unfold target_param_dict spec_priority_assign in_list
  simp [h1, h2, h3, h4, h5, h6]

lemma assign_attn_pbm (i : ℕ) :
    target_param_dict (attn_param_name i ".position_bias_mult".data) = Bucket.position_bias_mult
    ∧ spec_priority_assign (attn_param_name i ".position_bias_mult".data)
        = Bucket.position_bias_mult := by
  have h1 := hasSub_attn_false "decay".data i ".position_bias_mult".data
    (by decide) (by decide) (by decide)
  have h2 := hasSub_attn_true "position_bias_mult".data i ".position_bias_mult".data (by decide)
  unfold target_param_dict spec_priority_assign in_list
  simp [h1, h2]

lemma assign_attn_norm (i : ℕ) :
    target_param_dict (attn_param_name i ".norm.weight".data) = Bucket.norm_bias_embedding
    ∧ spec_priority_assign (attn_param_name i ".norm.weight".data)
        = Bucket.norm_bias_embedding := by
  have h1 := hasSub_attn_false "decay".data i ".norm.weight".data
    (by decide) (by decide) (by decide)
  have h2 := hasSub_attn_false "position_bias_mult".data i ".norm.weight".data
    (by decide) (by decide) (by decide)
  have h3 := hasSub_attn_true "norm".data i ".norm.weight".data (by decide)
  unfold target_param_dict spec_priority_assign in_list
  simp [h1, h2, h3]

lemma assign_embedding :
    target_param_dict "net_dict.embedding.weight".data = Bucket.norm_bias_embedding
    ∧ spec_priority_assign "net_dict.embedding.weight".data
        = Bucket.norm_bias_embedding := by
  constructor <;> decide

lemma assign_final_norm :
    target_param_dict "net_dict.norm.weight".data = Bucket.norm_bias_embedding
    ∧ spec_priority_assign "net_dict.norm.weight".data = Bucket.norm_bias_embedding := by
  constructor <;> decide

lemma assign_outputs :
    target_param_dict "net_dict.outputs.weight".data = Bucket.output
    ∧ spec_priority_assign "net_dict.outputs.weight".data = Bucket.output := by
  constructor <;> decide

lemma assign_block (d qk i : ℕ) (p : List Char × ℕ) (hp : p ∈ block_param_list d qk i) :
    target_param_dict p.1 = spec_priority_assign p.1 := by
  unfold block_param_list at hp
  simp only [List.mem_cons, List.not_mem_nil, or_false] at hp
  rcases hp with rfl | rfl | rfl | rfl
  · exact (assign_attn_expand i).1.trans (assign_attn_expand i).2.symm
  · exact (assign_attn_project i).1.trans (assign_attn_project i).2.symm
  · exact (assign_attn_pbm i).1.trans (assign_attn_pbm i).2.symm
  · exact (assign_attn_norm i).1.trans (assign_attn_norm i).2.symm

lemma bucket_numel_partition (l : List (List Char × ℕ)) :
    bucket_numel l Bucket.decay + bucket_numel l Bucket.position_bias_mult
      + bucket_numel l Bucket.norm_bias_embedding + bucket_numel l Bucket.output
      = total_numel l := by
  induction l with
  | nil => rfl
  | cons p l ih =>
    simp only [bucket_numel, total_numel, List.filter_cons, List.map_cons,
      List.sum_cons] at ih ⊢
    cases h : target_param_dict p.1 <;> simp [h, beq_iff_eq] <;> omega

/-- C5: for every assembled network, every trainable parameter is
assigned to exactly one of the four buckets, and the assignment agrees
with the spec's priority rule (position-bias multiplier >
{norm, bias, embedding} > output projection > default "decay"; the
code's extra leading `'decay'` substring key matches no actual parameter
name); consequently the per-bucket parameter counts sum to the total
trainable parameter count. -/
theorem c5_param_group_partition (depth V d qk : ℕ) :
    (∀ p ∈ param_list depth V d qk, target_param_dict p.1 = spec_priority_assign p.1)
    ∧ bucket_numel (param_list depth V d qk) Bucket.decay
        + bucket_numel (param_list depth V d qk) Bucket.position_bias_mult
        + bucket_numel (param_list depth V d qk) Bucket.norm_bias_embedding
        + bucket_numel (param_list depth V d qk) Bucket.output
      = total_numel (param_list depth V d qk) := by
  refine ⟨?_, bucket_numel_partition _⟩
  intro p hp
  unfold param_list at hp
  rcases List.mem_cons.mp hp with rfl | hp2
  · exact assign_embedding.1.trans assign_embedding.2.symm
  rcases List.mem_append.mp hp2 with hflat | hlast
  · rcases List.mem_flatten.mp hflat with ⟨lb, hlb, hpl⟩
    rcases List.mem_map.mp hlb with ⟨i, hi, rfl⟩
    exact assign_block d qk i p hpl
  · rcases List.mem_cons.mp hlast with rfl | hlast2
    · exact assign_final_norm.1.trans assign_final_norm.2.symm
    rcases List.mem_singleton.mp hlast2 with rfl
    exact assign_outputs.1.trans assign_outputs.2.symm

/-- C5 witness: a depth-2 network with vocabulary 5, width 4, query/key
dimension 1: the embedding parameter's bucket matches the spec priority
rule, and the bucket sizes sum to the total parameter count. -/
theorem c5_param_group_partition_witness :
    target_param_dict (("net_dict.embedding.weight".data, 5 * 4) : List Char × ℕ).1
        = spec_priority_assign (("net_dict.embedding.weight".data, 5 * 4) : List Char × ℕ).1
    ∧ bucket_numel (param_list 2 5 4 1) Bucket.decay
        + bucket_numel (param_list 2 5 4 1) Bucket.position_bias_mult
        + bucket_numel (param_list 2 5 4 1) Bucket.norm_bias_embedding
        + bucket_numel (param_list 2 5 4 1) Bucket.output
      = total_numel (param_list 2 5 4 1) :=
  ⟨(c5_param_group_partition 2 5 4 1).1 ("net_dict.embedding.weight".data, 5 * 4)
      (by unfold param_list; exact List.mem_cons_self _ _),
    (c5_param_group_partition 2 5 4 1).2⟩

/-- C9 counterexample: two calls of `eval` on the same model weights and
the same held-out data return different accuracies, because `eval` draws
fresh uniform-random start offsets through `get_batch` on every call
(line 468/337).  Both runs are reachable executions: the held-out split
has 4 tokens and the eval sequence length is 1, so `torch.randint`
samples start offsets from `[0, start_index_high 4 1) = [0, 2)` — the
first two conjuncts record that both drawn offsets lie in that support.
One call draws offset 0 (accuracy 1), the other offset 1 (accuracy 0). -/
theorem c9_eval_determinism_counterexample :
    0 < start_index_high data0.length evalHyp.seq_max
    ∧ 1 < start_index_high data0.length evalHyp.seq_max
    ∧ eval_acc evalHyp net0 data0 (fun _ _ => 0)
        ≠ eval_acc evalHyp net0 data0 (fun _ _ => 1) := by
  refine ⟨by decide, by decide, ?_⟩
  have hsteps : num_eval_steps evalHyp = 1 := rfl
  have ha0 : argmax_idx (net0 (batch_inputs data0 0) 0) = 0 := rfl
  have ha1 : argmax_idx (net0 (batch_inputs data0 1) 0) = 0 := rfl
  have ht0 : batch_targets data0 0 0 = 0 := rfl
  have ht1 : batch_targets data0 1 0 = 1 := rfl
  unfold eval_acc eval_step_acc
  rw [hsteps]
  simp only [Finset.sum_range_one, show evalHyp.seq_max = 1 from rfl,
    show eval_batchsize evalHyp = 1 from rfl, ha0, ha1, ht0, ht1]
  norm_num

/-- C9 (amended): `eval` is a deterministic function of the model
weights, the held-out data, and the start offsets drawn by `get_batch`:
two calls that draw identical offset sequences return identical loss and
accuracy values.  (Repeated calls of the source function draw fresh
random offsets, so they may differ — see the counterexample.) -/
theorem c9_eval_determinism (h : Hyp) (V : ℕ) (net : (ℕ → ℕ) → ℕ → Fin V → ℚ)
    (lossB : (ℕ → ℕ → Fin V → ℚ) → (ℕ → ℕ → ℕ) → ℚ) (data : List ℕ)
    (offs1 offs2 : ℕ → ℕ → ℕ) (hoffs : ∀ s b, offs1 s b = offs2 s b) :
    eval_acc h net data offs1 = eval_acc h net data offs2
    ∧ eval_loss h net lossB data offs1 = eval_loss h net lossB data offs2 := by
  have hfun : offs1 = offs2 := funext fun s => funext fun b => hoffs s b
  rw [hfun]
  exact ⟨rfl, rfl⟩

/-- C9 witness: the amended determinism statement at the concrete tiny
instance, with both calls drawing the offset 0 everywhere. -/
theorem c9_eval_determinism_witness :
    eval_acc evalHyp net0 data0 (fun _ _ => 0)
        = eval_acc evalHyp net0 data0 (fun _ _ => 0)
    ∧ eval_loss evalHyp net0 (fun _ _ => 0) data0 (fun _ _ => 0)
        = eval_loss evalHyp net0 (fun _ _ => 0) data0 (fun _ _ => 0) :=
  c9_eval_determinism evalHyp 2 net0 (fun _ _ => 0) data0 (fun _ _ => 0)
    (fun _ _ => 0) (fun _ _ => rfl)

/-- C8 witness: the amended ordering at the very first optimizer
application of the default configuration. -/
theorem c8_optimizer_step_order_witness :
    (trainStep hyp0 (fun l => l) ⟨3, 0, false⟩ (initState hyp0)).applied_decays
        = (initState hyp0).applied_decays ++ [(initState hyp0).weight_decay]
    ∧ (trainStep hyp0 (fun l => l) ⟨3, 0, false⟩ (initState hyp0)).weight_decay
        = (fun l : ℚ => l) (3 : ℚ)
    ∧ (trainStep hyp0 (fun l => l) ⟨3, 0, false⟩ (initState hyp0)).sched_steps
        = (initState hyp0).sched_steps + 1
    ∧ (trainStep hyp0 (fun l => l) ⟨3, 0, false⟩ (initState hyp0)).grad_accum = 0
    ∧ (trainStep hyp0 (fun l => l) ⟨3, 0, false⟩ (initState hyp0)).curr_microbatch_step = 1
    ∧ (trainStep hyp0 (fun l => l) ⟨3, 0, false⟩ (initState hyp0)).curr_step
        = (initState hyp0).curr_step + 1 :=
  c8_optimizer_step_order hyp0 (fun l => l) ⟨3, 0, false⟩ (initState hyp0)
    (by simp [initState])

/-! ### Causality lemmas -/

lemma fusedRow_congr {d qk T : ℕ} (W : BlockWeights d qk)
    (x1 x2 : Fin T → Fin d → ℚ) (i : Fin T) (h : ∀ j, j ≤ i → x1 j = x2 j)
    (t : Fin T) (ht : t ≤ i) : ∀ r, fusedRow W x1 t r = fusedRow W x2 t r := by
  intro r
  unfold fusedRow
  rw [h t ht]

lemma gegluValue_congr {d qk T : ℕ} (ops : Ops) (W : BlockWeights d qk) (lv : Bool)
    (x1 x2 : Fin T → Fin d → ℚ) (i : Fin T) (h : ∀ j, j ≤ i → x1 j = x2 j)
    (t : Fin T) (ht : t ≤ i) : ∀ v, gegluValue ops W lv x1 t v = gegluValue ops W lv x2 t v := by
  intro v
  unfold gegluValue gegluRow
  simp only [fusedRow_congr W x1 x2 i h t ht]

lemma scoreAt_congr {d qk T : ℕ} (ops : Ops) (W : BlockWeights d qk)
    (x1 x2 : Fin T → Fin d → ℚ) (i : Fin T) (h : ∀ j, j ≤ i → x1 j = x2 j)
    (t : Fin T) (ht : t ≤ i) (j : Fin T) (hj : j ≤ i) :
    scoreAt ops W x1 t j = scoreAt ops W x2 t j := by
  unfold scoreAt
  simp only [fusedRow_congr W x1 x2 i h t ht, fusedRow_congr W x1 x2 i h j hj]

lemma attnOut_congr {d qk T : ℕ} (ops : Ops) (W : BlockWeights d qk) (lv : Bool)
    (x1 x2 : Fin T → Fin d → ℚ) (i : Fin T) (h : ∀ j, j ≤ i → x1 j = x2 j)
    (t : Fin T) (ht : t ≤ i) : ∀ v, attnOut ops W lv x1 t v = attnOut ops W lv x2 t v := by
  intro v
  have hnum : ∀ j ∈ Finset.Iic t,
      ops.expF (scoreAt ops W x1 t j) * gegluValue ops W lv x1 j v
        = ops.expF (scoreAt ops W x2 t j) * gegluValue ops W lv x2 j v := by
    intro j hj
    have hji : j ≤ i := le_trans (Finset.mem_Iic.mp hj) ht
    rw [scoreAt_congr ops W x1 x2 i h t ht j hji,
      gegluValue_congr ops W lv x1 x2 i h j hji]
  have hden : ∀ j ∈ Finset.Iic t,
      ops.expF (scoreAt ops W x1 t j) = ops.expF (scoreAt ops W x2 t j) := by
    intro j hj
    have hji : j ≤ i := le_trans (Finset.mem_Iic.mp hj) ht
    rw [scoreAt_congr ops W x1 x2 i h t ht j hji]
  unfold attnOut
  rw [Finset.sum_congr rfl hnum, Finset.sum_congr rfl hden]

lemma catRow_congr {d qk T : ℕ} (ops : Ops) (W : BlockWeights d qk) (lv : Bool)
    (x1 x2 : Fin T → Fin d → ℚ) (i : Fin T) (h : ∀ j, j ≤ i → x1 j = x2 j)
    (t : Fin T) (ht : t ≤ i) : ∀ r, catRow ops W lv x1 t r = catRow ops W lv x2 t r := by
  intro r
  unfold catRow
  split
  · unfold gegluLocal gegluRow
    simp only [fusedRow_congr W x1 x2 i h t ht]
  · exact attnOut_congr ops W lv x1 x2 i h t ht _

lemma blockForward_causal {d qk T : ℕ} (ops : Ops) (W : BlockWeights d qk) (lv : Bool)
    (x1 x2 : Fin T → Fin d → ℚ) (i : Fin T) (h : ∀ j, j ≤ i → x1 j = x2 j)
    (t : Fin T) (ht : t ≤ i) (c : Fin d) :
    blockForward ops W lv x1 t c = blockForward ops W lv x2 t c := by
  unfold blockForward
  rw [h t ht, Finset.sum_congr rfl fun r _ => by
    rw [catRow_congr ops W lv x1 x2 i h t ht r]]

lemma blocksApply_causal {d qk T : ℕ} (ops : Ops) (lv : Bool)
    (Ws : List (BlockWeights d qk)) :
    ∀ (x1 x2 : Fin T → Fin d → ℚ) (i : Fin T), (∀ j, j ≤ i → x1 j = x2 j) →
      ∀ j, j ≤ i → blocksApply ops lv Ws x1 j = blocksApply ops lv Ws x2 j := by
  induction Ws with
  | nil => intro x1 x2 i h j hj; exact h j hj
  | cons W Ws ih =>
    intro x1 x2 i h j hj
    apply ih _ _ i ?_ j hj
    intro u hu
    funext c
    exact blockForward_causal ops W lv x1 x2 i h u hu c

/-- C1: fixing weights and configuration, the attention block's output
at position `i` — and hence the assembled network's logits at position
`i` — are unchanged when token content strictly after position `i` is
perturbed: two runs on inputs agreeing at all positions `≤ i` produce
identical position-`i` outputs. -/
theorem c1_causal_mask :
    (∀ (d qk T : ℕ) (ops : Ops) (W : BlockWeights d qk) (lv : Bool)
        (x1 x2 : Fin T → Fin d → ℚ) (i : Fin T),
        (∀ j, j ≤ i → x1 j = x2 j) →
        ∀ c, blockForward ops W lv x1 i c = blockForward ops W lv x2 i c)
    ∧ (∀ (V d qk T : ℕ) (ops : Ops) (lv : Bool) (NW : NetWeights V d qk)
        (tok1 tok2 : Fin T → Fin V) (i : Fin T),
        (∀ j, j ≤ i → tok1 j = tok2 j) →
        ∀ v, netForward ops lv NW tok1 i v = netForward ops lv NW tok2 i v) := by
  constructor
  · intro d qk T ops W lv x1 x2 i h c
    exact blockForward_causal ops W lv x1 x2 i h i le_rfl c
  · intro V d qk T ops lv NW tok1 tok2 i h v
    unfold netForward
    rw [blocksApply_causal ops lv NW.blocks (fun u => NW.embedding (tok1 u))
      (fun u => NW.embedding (tok2 u)) i (fun j hj => congrArg NW.embedding (h j hj)) i le_rfl]

/-- C1 witness: perturbing position 2 leaves the block output and the
network logits at position 1 unchanged, at a concrete width-1
single-block instance. -/
theorem c1_causal_mask_witness :
    (∀ c, blockForward opsW blockW false x1w (1 : Fin 3) c
        = blockForward opsW blockW false x2w (1 : Fin 3) c)
    ∧ ∀ v, netForward opsW false netW tok1w (1 : Fin 3) v
        = netForward opsW false netW tok2w (1 : Fin 3) v :=
  ⟨c1_causal_mask.1 1 1 3 opsW blockW false x1w x2w 1 (by decide),
    c1_causal_mask.2 2 1 1 3 opsW false netW tok1w tok2w 1 (by decide)⟩

lemma infinite_powah_warmup (s : ℝ) (hs : s < 100) :
    infinite_powah s = 2/100 + (98/10000) * s := by
  unfold infinite_powah infinite_power_law_decay
  rw [if_pos hs]
  ring

lemma infinite_powah_decay (s : ℝ) (hs : 100 ≤ s) :
    infinite_powah s = (s + 1 - 100) ^ (-(8/100) : ℝ) := by
  unfold infinite_powah infinite_power_law_decay
  rw [if_neg (not_lt.mpr hs)]

lemma infinite_powah_deriv_on_decay (s : ℝ) (hs : 100 < s) :
    deriv infinite_powah s
      = 1 * (-(8/100) : ℝ) * (s + 1 - 100) ^ ((-(8/100) : ℝ) - 1) := by
  have hfg : Set.EqOn infinite_powah (fun y : ℝ => (y + 1 - 100) ^ (-(8/100) : ℝ))
      (Set.Ioi (100 : ℝ)) := fun y hy => infinite_powah_decay y (le_of_lt hy)
  have hev : infinite_powah =ᶠ[nhds s] fun y : ℝ => (y + 1 - 100) ^ (-(8/100) : ℝ) :=
    Filter.eventuallyEq_of_mem (Ioi_mem_nhds hs) hfg
  rw [hev.deriv_eq]
  have hbase : HasDerivAt (fun y : ℝ => y + 1 - 100) 1 s :=
    ((hasDerivAt_id s).add_const 1).sub_const 100
  exact (hbase.rpow_const (Or.inl (by norm_num; linarith))).deriv

lemma infinite_powah_deriv2_pos (x : ℝ) (hx : 100 < x) :
    0 < deriv^[2] infinite_powah x := by
  rw [Function.iterate_succ_apply', Function.iterate_one]
  have h1 : Set.EqOn (deriv infinite_powah)
      (fun y : ℝ => 1 * (-(8/100) : ℝ) * ((y + 1 - 100) ^ ((-(8/100) : ℝ) - 1)))
      (Set.Ioi (100 : ℝ)) := fun y hy => infinite_powah_deriv_on_decay y hy
  have hev : deriv infinite_powah
      =ᶠ[nhds x] fun y : ℝ => 1 * (-(8/100) : ℝ) * ((y + 1 - 100) ^ ((-(8/100) : ℝ) - 1)) :=
    Filter.eventuallyEq_of_mem (Ioi_mem_nhds hx) h1
  rw [hev.deriv_eq]
  have hbase : HasDerivAt (fun y : ℝ => y + 1 - 100) 1 x :=
    ((hasDerivAt_id x).add_const 1).sub_const 100
  have hinner : HasDerivAt (fun y : ℝ => (y + 1 - 100) ^ ((-(8/100) : ℝ) - 1))
      (1 * ((-(8/100) : ℝ) - 1) * (x + 1 - 100) ^ ((-(8/100) : ℝ) - 1 - 1)) x :=
    hbase.rpow_const (Or.inl (by norm_num; linarith))
  have houter := hinner.const_mul (1 * (-(8/100) : ℝ))
  rw [houter.deriv]
  have hp : (0 : ℝ) < (x + 1 - 100) ^ ((-(8/100) : ℝ) - 1 - 1) :=
    Real.rpow_pos_of_pos (by linarith) _
  nlinarith

/-- C6: the default-bucket multiplicative schedule `infinite_powah`
(warmup window 100) is linear and strictly increasing in the step index
below the warmup window, and beyond it equals the power law
`(s + 1 - peak_step) ^ (-0.08)`, which is strictly decreasing and
convex. -/
theorem c6_default_schedule_shape :
    (∀ s : ℝ, s < 100 → infinite_powah s = 2/100 + (98/10000) * s)
    ∧ StrictMonoOn infinite_powah (Set.Iio (100 : ℝ))
    ∧ (∀ s : ℝ, 100 ≤ s → infinite_powah s = (s + 1 - 100) ^ (-(8/100) : ℝ))
    ∧ StrictAntiOn infinite_powah (Set.Ici (100 : ℝ))
    ∧ ConvexOn ℝ (Set.Ici (100 : ℝ)) infinite_powah := by
  refine ⟨infinite_powah_warmup, ?_, infinite_powah_decay, ?_, ?_⟩
  · intro a ha b hb hab
    rw [infinite_powah_warmup a ha, infinite_powah_warmup b hb]
    nlinarith
  · intro a ha b hb hab
    rw [infinite_powah_decay a ha, infinite_powah_decay b hb]
    exact Real.rpow_lt_rpow_of_neg (by simp only [Set.mem_Ici] at ha; linarith)
      (by linarith) (by norm_num)
  · have hcont : ContinuousOn infinite_powah (Set.Ici (100 : ℝ)) := by
      have hg : ContinuousOn (fun y : ℝ => (y + 1 - 100) ^ (-(8/100) : ℝ))
          (Set.Ici (100 : ℝ)) := by
        apply ContinuousOn.rpow_const
        · exact ((continuous_id.add continuous_const).sub continuous_const).continuousOn
        · intro y hy
          simp only [Set.mem_Ici] at hy
          exact Or.inl (by norm_num; linarith)
      exact hg.congr fun y hy => infinite_powah_decay y hy
    have hstrict : StrictConvexOn ℝ (Set.Ici (100 : ℝ)) infinite_powah := by
      apply strictConvexOn_of_deriv2_pos (convex_Ici 100) hcont
      intro x hx
      rw [interior_Ici] at hx
      exact infinite_powah_deriv2_pos x hx
    exact hstrict.convexOn

/-- C6 witness: the warmup branch evaluated at step 0 equals the floor
multiplier `2e-2`. -/
theorem c6_default_schedule_shape_witness :
    infinite_powah 0 = 2/100 + (98/10000) * 0 :=
  c6_default_schedule_shape.1 0 (by norm_num)

end HlbGpt
